import Mathlib

/-!
Verification development for the `bft` repository: a shallow embedding of
`bft_types` (instruction parsing and bracket validation) and `bft_interp`
(the virtual machine and its execution loop), together with theorems
settling the specification claims.

Conventions of the embedding:
* Rust `u8` cell values are `Nat` with explicit `% 256` where wrapping occurs.
* Rust `usize` is `Nat`; a `usize` underflow (Rust panics with overflow
  checks) and an out-of-bounds index (Rust panics) are modelled by a
  distinguished `panicked` result.
* Byte streams (`Read`/`Write`) are modelled as `List Nat` of bytes.
* Fallible functions return an explicit result type; looping code is
  fuel-indexed, `none` meaning the fuel ran out.
-/

/-- Instruction enum of `bft_types`: the eight commands plus `Comment`,
each carrying its 1-based line and column. -/
inductive Instruction where
  | IncrementDP (line col : Nat)
  | DecrementDP (line col : Nat)
  | IncrementByte (line col : Nat)
  | DecrementByte (line col : Nat)
  | Output (line col : Nat)
  | Input (line col : Nat)
  | JumpForward (line col : Nat)
  | JumpBack (line col : Nat)
  | Comment (line col : Nat) (ch : Char)
deriving DecidableEq, Repr

/-- `TryFrom<SourceInput> for Instruction`: maps a character (with its
line and column) to the corresponding instruction; every character not in
the 8-symbol set becomes a `Comment`.  The Rust impl always returns `Ok`,
so the embedding is total. -/
def Instruction.try_from (line col : Nat) (ch : Char) : Instruction :=
  if ch = '>' then .IncrementDP line col
  else if ch = '<' then .DecrementDP line col
  else if ch = '+' then .IncrementByte line col
  else if ch = '-' then .DecrementByte line col
  else if ch = '.' then .Output line col
  else if ch = ',' then .Input line col
  else if ch = '[' then .JumpForward line col
  else if ch = ']' then .JumpBack line col
  else .Comment line col ch

/-- Drops one trailing carriage return, as Rust `str::lines` does for a
line produced by a `\r\n` line ending. -/
def stripCR (l : List Char) : List Char :=
  if l.getLast? = some '\r' then l.dropLast else l

/-- Accumulator loop modelling Rust `str::lines`: split on `'\n'`,
stripping a `'\r'` that immediately precedes the split point; a final
line ending is optional and produces no empty trailing line. -/
def linesAux : List Char → List Char → List (List Char)
  | [], acc => if acc = [] then [] else [acc.reverse]
  | c :: rest, acc =>
    if c = '\n' then stripCR acc.reverse :: linesAux rest []
    else linesAux rest (c :: acc)

/-- Models Rust `str::lines` on the character list of the source text. -/
def linesOf (content : List Char) : List (List Char) :=
  linesAux content []

/-- The `Program` structure of `bft_types`: source filename plus the
ordered instruction sequence. -/
structure Program where
  filename : String
  ins : List Instruction
deriving DecidableEq, Repr

/-- `Program::new`: enumerates the lines of the source and the characters
of each line, converting each character via `Instruction.try_from` with
1-based line and column numbers, and flattens the per-line instruction
lists. -/
def Program.new (filename : String) (content : String) : Program :=
  { filename := filename
    ins := ((linesOf content.toList).enum.map (fun p =>
      p.2.enum.map (fun q => Instruction.try_from (p.1 + 1) (q.1 + 1) q.2))).flatten }

/-- `Program::instructions`: the instruction sequence. -/
def Program.instructions (p : Program) : List Instruction :=
  p.ins

/-- Validation errors of `Program::validate`, carrying the 1-based line
and column reported in the Rust error message. -/
inductive BracketError where
  | extraClose (line col : Nat)
  | extraOpen (line col : Nat)
deriving DecidableEq, Repr

/-- The scan loop of `Program::validate`: a stack of `(line, col)` pairs;
`JumpForward` pushes, `JumpBack` pops or fails on an empty stack, and a
non-empty stack at the end reports the most recently pushed entry. -/
def validateAux : List Instruction → List (Nat × Nat) → Except BracketError Unit
  | [], stack =>
    match stack with
    | [] => .ok ()
    | (l, c) :: _ => .error (.extraOpen l c)
  | i :: rest, stack =>
    match i with
    | .JumpForward l c => validateAux rest ((l, c) :: stack)
    | .JumpBack l c =>
      match stack with
      | [] => .error (.extraClose l c)
      | _ :: stack' => validateAux rest stack'
    | _ => validateAux rest stack

/-- `Program::validate`: bracket matching via a position stack. -/
def Program.validate (p : Program) : Except BracketError Unit :=
  validateAux p.ins []

/-- Error values produced by the virtual machine, abstracting the
`std::io::Error` values constructed in `bft_interp`. -/
inductive VMError where
  | alreadyExecuted
  | tapeBounds
  | readError
deriving DecidableEq, Repr

/-- Result of one VM operation: success, a returned error, or a Rust
panic (out-of-bounds index / `usize` underflow). -/
inductive OpResult (α : Type) where
  | ok (val : α)
  | fail (e : VMError)
  | panicked
deriving DecidableEq, Repr

/-- The `VirtualMachine` structure of `bft_interp`. -/
structure VirtualMachine where
  size : Nat
  growable : Bool
  cells : List Nat
  ip : Nat
  head : Nat
  prg : Program
deriving DecidableEq, Repr

/-- `CellKind::wrapping_increment` for `u8`, as `Nat` arithmetic mod 256. -/
def wrapping_increment (c : Nat) : Nat :=
  (c + 1) % 256

/-- `CellKind::wrapping_decrement` for `u8`, as `Nat` arithmetic mod 256. -/
def wrapping_decrement (c : Nat) : Nat :=
  (c + 255) % 256

namespace VirtualMachine

/-- `VirtualMachine::new`: a requested size of 0 becomes 30000; the tape
is that many zero cells; `ip` and `head` start at 0. -/
def new (size : Nat) (growable : Bool) (prog : Program) : VirtualMachine :=
  { size := if size = 0 then 30000 else size
    growable := growable
    cells := List.replicate (if size = 0 then 30000 else size) 0
    ip := 0
    head := 0
    prg := prog }

/-- `VirtualMachine::move_head_left`: fails with a tape-bounds error at
head 0, otherwise decrements the head, increments `ip` and returns the
new `ip` with the updated machine. -/
def move_head_left (vm : VirtualMachine) : OpResult (Nat × VirtualMachine) :=
  if vm.head = 0 then .fail .tapeBounds
  else
    let vm' := { vm with head := vm.head - 1, ip := vm.ip + 1 }
    .ok (vm'.ip, vm')

/-- `VirtualMachine::move_head_right`: fails with a tape-bounds error
when the head sits at `cells.len() - 1` (regardless of `growable`),
otherwise increments the head and `ip`. -/
def move_head_right (vm : VirtualMachine) : OpResult (Nat × VirtualMachine) :=
  if vm.head = vm.cells.length - 1 then .fail .tapeBounds
  else
    let vm' := { vm with head := vm.head + 1, ip := vm.ip + 1 }
    .ok (vm'.ip, vm')

/-- `VirtualMachine::input`: reads exactly one byte from the stream into
the cell at the head (a read from an exhausted stream fails before any
state change; writing to an out-of-bounds head is a Rust index panic),
then increments `ip`. -/
def input (vm : VirtualMachine) (r : List Nat) :
    OpResult (Nat × VirtualMachine × List Nat) :=
  match r with
  | [] => .fail .readError
  | b :: rest =>
    if vm.head < vm.cells.length then
      let vm' := { vm with cells := vm.cells.set vm.head (b % 256), ip := vm.ip + 1 }
      .ok (vm'.ip, vm', rest)
    else .panicked

/-- `VirtualMachine::output`: appends the cell at the head to the output
stream (an out-of-bounds head is a Rust index panic), then increments
`ip`.  The list-modelled sink never fails to accept a byte. -/
def output (vm : VirtualMachine) (w : List Nat) :
    OpResult (Nat × VirtualMachine × List Nat) :=
  match vm.cells[vm.head]? with
  | none => .panicked
  | some c =>
    let vm' := { vm with ip := vm.ip + 1 }
    .ok (vm'.ip, vm', w ++ [c])

/-- The scan loop inside `VirtualMachine::start_loop`: starting from
instruction pointer `ip` with the given position stack, repeatedly
increments the pointer and inspects the instruction there; `JumpForward`
pushes, `JumpBack` pops and, when the stack becomes empty, stops with the
pointer one past the `JumpBack`.  Indexing past the end of the
instruction list is a Rust panic, modelled as `none` (as is fuel
exhaustion, which does not occur for the fuel used by `start_loop`). -/
def start_loop_scan (ins : List Instruction) :
    Nat → Nat → List Nat → Option Nat
  | 0, _, _ => none
  | fuel + 1, ip, stack =>
    match ins[ip + 1]? with
    | none => none
    | some i =>
      match i with
      | .JumpForward _ _ => start_loop_scan ins fuel (ip + 1) ((ip + 1) :: stack)
      | .JumpBack _ _ =>
        if stack.tail.isEmpty then some (ip + 2)
        else start_loop_scan ins fuel (ip + 1) stack.tail
      | _ => start_loop_scan ins fuel (ip + 1) stack

/-- `VirtualMachine::start_loop`: when the cell at the head is 0, scans
forward (stack seeded with the current `ip`) for the matching `JumpBack`
and sets `ip` just past it; otherwise just increments `ip`.  The scan
visits at most the rest of the instruction list, so fuel equal to the
list length is never exhausted. -/
def start_loop (vm : VirtualMachine) : OpResult (Nat × VirtualMachine) :=
  match vm.cells[vm.head]? with
  | none => .panicked
  | some c =>
    if c = 0 then
      match start_loop_scan vm.prg.ins vm.prg.ins.length vm.ip [vm.ip] with
      | some newIp => .ok (newIp, { vm with ip := newIp })
      | none => .panicked
    else
      let vm' := { vm with ip := vm.ip + 1 }
      .ok (vm'.ip, vm')

/-- The scan loop inside `VirtualMachine::end_loop`: decrements the
pointer (a decrement at pointer 0 is a `usize` underflow, a Rust panic)
and inspects the instruction there; `JumpBack` pushes, `JumpForward`
pops and, when the stack becomes empty, stops with the pointer one past
the `JumpForward`. -/
def end_loop_scan (ins : List Instruction) :
    Nat → Nat → List Nat → Option Nat
  | 0, _, _ => none
  | fuel + 1, ip, stack =>
    if ip = 0 then none
    else
      match ins[ip - 1]? with
      | none => none
      | some i =>
        match i with
        | .JumpBack _ _ => end_loop_scan ins fuel (ip - 1) ((ip - 1) :: stack)
        | .JumpForward _ _ =>
          if stack.tail.isEmpty then some ip
          else end_loop_scan ins fuel (ip - 1) stack.tail
        | _ => end_loop_scan ins fuel (ip - 1) stack

/-- `VirtualMachine::end_loop`: when the cell at the head is nonzero,
scans backward (stack seeded with the current `ip`) for the matching
`JumpForward` and sets `ip` just past it; otherwise just increments
`ip`.  The scan visits at most `ip` positions, so fuel `ip + 1` is never
exhausted. -/
def end_loop (vm : VirtualMachine) : OpResult (Nat × VirtualMachine) :=
  match vm.cells[vm.head]? with
  | none => .panicked
  | some c =>
    if c ≠ 0 then
      match end_loop_scan vm.prg.ins (vm.ip + 1) vm.ip [vm.ip] with
      | some newIp => .ok (newIp, { vm with ip := newIp })
      | none => .panicked
    else
      let vm' := { vm with ip := vm.ip + 1 }
      .ok (vm'.ip, vm')

end VirtualMachine

/-- Outcome of a run of `interpret`: normal completion, a returned
error, or a Rust panic, each carrying the machine and both streams at
that moment. -/
inductive RunResult where
  | ok (vm : VirtualMachine) (inp out : List Nat)
  | vmerr (e : VMError) (vm : VirtualMachine) (inp out : List Nat)
  | panicked
deriving DecidableEq, Repr

/-- Outcome of one iteration of the execution loop: either the loop
continues with an updated machine and streams, or it halts with a
`RunResult`. -/
inductive StepOut where
  | next (vm : VirtualMachine) (inp out : List Nat)
  | halt (r : RunResult)
deriving DecidableEq, Repr

namespace VirtualMachine

/-- One iteration of the loop body of `VirtualMachine::interpret`,
dispatching on the instruction at `ip`.  Mirrors the source arm by arm:
the `IncrementDP` and `DecrementDP` arms change `head` directly with no
bounds check (a decrement of `head` at 0 is a `usize` underflow, a Rust
panic); the byte arms index the tape; the `Input` and `Output` arms
discard the result of `input`/`output` with `let _ = ...`, so a failed
read leaves the state (including `ip`) unchanged and the loop simply
runs again; the jump arms propagate errors with `?`. -/
def step (vm : VirtualMachine) (inp out : List Nat) : StepOut :=
  match vm.prg.ins[vm.ip]? with
  | none => .halt .panicked
  | some i =>
    match i with
    | .IncrementDP _ _ =>
      .next { vm with head := vm.head + 1, ip := vm.ip + 1 } inp out
    | .DecrementDP _ _ =>
      if vm.head = 0 then .halt .panicked
      else .next { vm with head := vm.head - 1, ip := vm.ip + 1 } inp out
    | .IncrementByte _ _ =>
      match vm.cells[vm.head]? with
      | none => .halt .panicked
      | some c =>
        .next { vm with cells := vm.cells.set vm.head (wrapping_increment c),
                        ip := vm.ip + 1 } inp out
    | .DecrementByte _ _ =>
      match vm.cells[vm.head]? with
      | none => .halt .panicked
      | some c =>
        .next { vm with cells := vm.cells.set vm.head (wrapping_decrement c),
                        ip := vm.ip + 1 } inp out
    | .Output _ _ =>
      match vm.output out with
      | .ok (_, vm', out') => .next vm' inp out'
      | .fail _ => .next vm inp out
      | .panicked => .halt .panicked
    | .Input _ _ =>
      match vm.input inp with
      | .ok (_, vm', inp') => .next vm' inp' out
      | .fail _ => .next vm inp out
      | .panicked => .halt .panicked
    | .JumpForward _ _ =>
      match vm.start_loop with
      | .ok (_, vm') => .next vm' inp out
      | .fail e => .halt (.vmerr e vm inp out)
      | .panicked => .halt .panicked
    | .JumpBack _ _ =>
      match vm.end_loop with
      | .ok (_, vm') => .next vm' inp out
      | .fail e => .halt (.vmerr e vm inp out)
      | .panicked => .halt .panicked
    | .Comment _ _ _ =>
      .next { vm with ip := vm.ip + 1 } inp out

/-- The execution loop of `VirtualMachine::interpret`, fuel-indexed
(`none` means the fuel ran out, which on a diverging program happens for
every fuel): loop while `ip` has not reached the end of the program,
performing one dispatch `step` per iteration. -/
def interpretFuel : Nat → VirtualMachine → List Nat → List Nat → Option RunResult
  | 0, _, _, _ => none
  | fuel + 1, vm, inp, out =>
    if vm.prg.ins.length ≤ vm.ip then some (.ok vm inp out)
    else
      match step vm inp out with
      | .next vm' inp' out' => interpretFuel fuel vm' inp' out'
      | .halt r => some r

/-- `VirtualMachine::interpret`: rejects a machine whose instruction
pointer is nonzero (the "already executed" check), then runs the
execution loop. -/
def interpret (fuel : Nat) (vm : VirtualMachine) (inp out : List Nat) :
    Option RunResult :=
  if vm.ip ≠ 0 then some (.vmerr .alreadyExecuted vm inp out)
  else interpretFuel fuel vm inp out

end VirtualMachine

/-! ### Specification-side bracket notions

The spec describes the jump searches as depth-counter scans and calls a
program balanced by the standard parenthesis-matching law.  The
definitions below follow the spec's words; the theorems relate them to
the stack-based code above. -/

/-- Whether an instruction is a `LoopStart` (`[`). -/
def isOpen : Instruction → Bool
  | .JumpForward _ _ => true
  | _ => false

/-- Whether an instruction is a `LoopEnd` (`]`). -/
def isClose : Instruction → Bool
  | .JumpBack _ _ => true
  | _ => false

/-- Depth contribution of one instruction for a scan in which `pos`
instructions increment the depth and `neg` instructions decrement it. -/
def scanStep (pos neg : Instruction → Bool) (i : Instruction) : Int :=
  if pos i then 1 else if neg i then -1 else 0

/-- Net depth change of an instruction sequence under a `pos`/`neg`
classification. -/
def scoreBy (pos neg : Instruction → Bool) (xs : List Instruction) : Int :=
  (xs.map (scanStep pos neg)).sum

/-- Net bracket count of an instruction sequence: `+1` per `LoopStart`,
`-1` per `LoopEnd`. -/
def score (xs : List Instruction) : Int :=
  scoreBy isOpen isClose xs

/-- Modelled from the spec: a program is balanced when its brackets obey
the standard parenthesis-matching law — no prefix closes more brackets
than it has opened, and the whole sequence opens and closes equally
many. -/
def BalancedProgram (xs : List Instruction) : Prop :=
  score xs = 0 ∧ ∀ p, p ≤ xs.length → 0 ≤ score (xs.take p)

/-- Modelled from the spec: position `j` holds the `LoopEnd` matching
the `LoopStart` at position `i` when the bracket depth relative to the
position just after `i` first returns below its starting value exactly
at `j` — the spec's "depth counter starting at 1 reaches 0 there". -/
def MatchPair (xs : List Instruction) (i j : Nat) : Prop :=
  i < j ∧ j < xs.length ∧
  (∃ l c, xs[i]? = some (.JumpForward l c)) ∧
  (∃ l c, xs[j]? = some (.JumpBack l c)) ∧
  score (xs.take (j + 1)) = score (xs.take (i + 1)) - 1 ∧
  ∀ k, i < k → k ≤ j → score (xs.take (i + 1)) ≤ score (xs.take k)

/-- Modelled from the spec: the depth-counter scan.  Walking the list
with current depth `d`, a `pos` instruction increments the depth, a
`neg` instruction decrements it, and when the depth would reach 0 the
scan stops, returning how many instructions it consumed (so the stop
position is one past the `neg` instruction that closed the scan);
`none` when the list ends first. -/
def scanDepth (pos neg : Instruction → Bool) : List Instruction → Nat → Option Nat
  | [], _ => none
  | x :: rest, d =>
    if pos x then (scanDepth pos neg rest (d + 1)).map (· + 1)
    else if neg x then
      if d ≤ 1 then some 1
      else (scanDepth pos neg rest (d - 1)).map (· + 1)
    else (scanDepth pos neg rest d).map (· + 1)

instance (xs : List Instruction) : Decidable (BalancedProgram xs) := by
  unfold BalancedProgram
  infer_instance

/-- State components no loop iteration of `interpret` can change: the
program, the tape length, the configured size, and the growable flag. -/
def preserves (vm vm' : VirtualMachine) : Prop :=
  vm'.prg = vm.prg ∧ vm'.cells.length = vm.cells.length ∧
  vm'.size = vm.size ∧ vm'.growable = vm.growable

theorem scoreBy_nil (pos neg : Instruction → Bool) : scoreBy pos neg [] = 0 := rfl

theorem scoreBy_cons (pos neg : Instruction → Bool) (x : Instruction)
    (xs : List Instruction) :
    scoreBy pos neg (x :: xs) = scanStep pos neg x + scoreBy pos neg xs := by
  simp [scoreBy]

theorem scoreBy_append (pos neg : Instruction → Bool) (a b : List Instruction) :
    scoreBy pos neg (a ++ b) = scoreBy pos neg a + scoreBy pos neg b := by
  simp [scoreBy]

theorem scanStep_trichotomy (pos neg : Instruction → Bool) (x : Instruction) :
    scanStep pos neg x = 1 ∨ scanStep pos neg x = 0 ∨ scanStep pos neg x = -1 := by
  unfold scanStep
  split
  · exact Or.inl rfl
  · split
    · exact Or.inr (Or.inr rfl)
    · exact Or.inr (Or.inl rfl)

theorem scoreBy_take_succ (pos neg : Instruction → Bool) (xs : List Instruction)
    (n : Nat) (x : Instruction) (h : xs[n]? = some x) :
    scoreBy pos neg (xs.take (n + 1)) =
      scoreBy pos neg (xs.take n) + scanStep pos neg x := by
  rw [List.take_succ, h]
  simp [scoreBy_append, scoreBy_cons, scoreBy_nil]

theorem scoreBy_swap (xs : List Instruction) :
    scoreBy isClose isOpen xs = -score xs := by
  induction xs with
  | nil => rfl
  | cons x rest ih =>
    rw [score, scoreBy_cons, scoreBy_cons, ← score, ih]
    cases x <;> simp [scanStep, isOpen, isClose] <;> ring

/-- Discrete intermediate-value fact: a depth sum that ends at or below
`-d` passes through `-d` at some prefix. -/
theorem scoreBy_reaches (pos neg : Instruction → Bool) :
    ∀ (xs : List Instruction) (d : Nat), 1 ≤ d →
      scoreBy pos neg xs ≤ -(d : Int) →
      ∃ p, p ≤ xs.length ∧ scoreBy pos neg (xs.take p) = -(d : Int) := by
  intro xs
  induction xs with
  | nil =>
    intro d hd h
    rw [scoreBy_nil] at h
    exfalso
    omega
  | cons x rest ih =>
    intro d hd h
    rw [scoreBy_cons] at h
    rcases scanStep_trichotomy pos neg x with hs | hs | hs
    · have h' : scoreBy pos neg rest ≤ -((d + 1 : Nat) : Int) := by push_cast; omega
      obtain ⟨p, hp, hps⟩ := ih (d + 1) (by omega) h'
      refine ⟨p + 1, by simpa using hp, ?_⟩
      rw [List.take_succ_cons, scoreBy_cons, hps, hs]
      push_cast
      ring
    · have h' : scoreBy pos neg rest ≤ -(d : Int) := by omega
      obtain ⟨p, hp, hps⟩ := ih d hd h'
      refine ⟨p + 1, by simpa using hp, ?_⟩
      rw [List.take_succ_cons, scoreBy_cons, hps, hs]
      ring
    · rcases Nat.lt_or_ge 1 d with hd2 | hd1
      · have hc : ((d - 1 : Nat) : Int) = (d : Int) - 1 := by omega
        have h' : scoreBy pos neg rest ≤ -((d - 1 : Nat) : Int) := by omega
        obtain ⟨p, hp, hps⟩ := ih (d - 1) (by omega) h'
        refine ⟨p + 1, by simpa using hp, ?_⟩
        rw [List.take_succ_cons, scoreBy_cons, hps, hs]
        omega
      · have hd1' : d = 1 := by omega
        subst hd1'
        refine ⟨1, by simp, ?_⟩
        have : (x :: rest).take 1 = [x] := rfl
        rw [this, scoreBy_cons, scoreBy_nil, hs]
        norm_num

/-- The depth-counter scan succeeds as soon as some prefix of the list
brings the depth down by `d`, stops at the first such prefix, and that
prefix's last instruction is the one that closed the scan. -/
theorem scanDepth_finds (pos neg : Instruction → Bool) :
    ∀ (xs : List Instruction) (d : Nat), 1 ≤ d →
      (∃ p, p ≤ xs.length ∧ scoreBy pos neg (xs.take p) = -(d : Int)) →
      ∃ k, 1 ≤ k ∧ k ≤ xs.length ∧ scanDepth pos neg xs d = some k ∧
        scoreBy pos neg (xs.take k) = -(d : Int) ∧
        ∀ m, m < k → -(d : Int) < scoreBy pos neg (xs.take m) := by
  intro xs
  induction xs with
  | nil =>
    intro d hd ⟨p, hp, hps⟩
    have hp0 : p = 0 := by simpa using hp
    subst hp0
    rw [List.take_nil, scoreBy_nil] at hps
    exfalso
    omega
  | cons x rest ih =>
    intro d hd ⟨p, hp, hps⟩
    match p, hp with
    | 0, _ =>
      rw [List.take_zero, scoreBy_nil] at hps
      exfalso
      omega
    | p' + 1, hp =>
      rw [List.take_succ_cons, scoreBy_cons] at hps
      by_cases hpos : pos x
      · have hstep : scanStep pos neg x = 1 := by simp [scanStep, hpos]
        have hrest : scoreBy pos neg (rest.take p') = -((d + 1 : Nat) : Int) := by
          push_cast
          omega
        obtain ⟨k, hk1, hklen, hkeq, hksc, hkmin⟩ :=
          ih (d + 1) (by omega) ⟨p', by simpa using hp, hrest⟩
        refine ⟨k + 1, by omega, by simpa using hklen, ?_, ?_, ?_⟩
        · rw [scanDepth, if_pos hpos, hkeq]
          rfl
        · rw [List.take_succ_cons, scoreBy_cons, hksc, hstep]
          push_cast
          ring
        · intro m hm
          match m with
          | 0 =>
            rw [List.take_zero, scoreBy_nil]
            omega
          | m' + 1 =>
            rw [List.take_succ_cons, scoreBy_cons, hstep]
            have := hkmin m' (by omega)
            push_cast at this ⊢
            omega
      · by_cases hneg : neg x
        · have hstep : scanStep pos neg x = -1 := by simp [scanStep, hpos, hneg]
          rcases Nat.lt_or_ge 1 d with hd2 | hd1
          · have hc : ((d - 1 : Nat) : Int) = (d : Int) - 1 := by omega
            have hrest : scoreBy pos neg (rest.take p') = -((d - 1 : Nat) : Int) := by
              omega
            obtain ⟨k, hk1, hklen, hkeq, hksc, hkmin⟩ :=
              ih (d - 1) (by omega) ⟨p', by simpa using hp, hrest⟩
            refine ⟨k + 1, by omega, by simpa using hklen, ?_, ?_, ?_⟩
            · rw [scanDepth, if_neg hpos, if_pos hneg, if_neg (by omega), hkeq]
              rfl
            · rw [List.take_succ_cons, scoreBy_cons, hksc, hstep]
              omega
            · intro m hm
              match m with
              | 0 =>
                rw [List.take_zero, scoreBy_nil]
                omega
              | m' + 1 =>
                rw [List.take_succ_cons, scoreBy_cons, hstep]
                have := hkmin m' (by omega)
                omega
          · have hd1' : d = 1 := by omega
            subst hd1'
            refine ⟨1, le_refl 1, by simp, ?_, ?_, ?_⟩
            · rw [scanDepth, if_neg hpos, if_pos hneg, if_pos (le_refl 1)]
            · have : (x :: rest).take 1 = [x] := rfl
              rw [this, scoreBy_cons, scoreBy_nil, hstep]
              norm_num
            · intro m hm
              interval_cases m
              rw [List.take_zero, scoreBy_nil]
              norm_num
        · have hstep : scanStep pos neg x = 0 := by simp [scanStep, hpos, hneg]
          have hrest : scoreBy pos neg (rest.take p') = -(d : Int) := by omega
          obtain ⟨k, hk1, hklen, hkeq, hksc, hkmin⟩ :=
            ih d hd ⟨p', by simpa using hp, hrest⟩
          refine ⟨k + 1, by omega, by simpa using hklen, ?_, ?_, ?_⟩
          · rw [scanDepth, if_neg hpos, if_neg hneg, hkeq]
            rfl
          · rw [List.take_succ_cons, scoreBy_cons, hksc, hstep]
            ring
          · intro m hm
            match m with
            | 0 =>
              rw [List.take_zero, scoreBy_nil]
              omega
            | m' + 1 =>
              rw [List.take_succ_cons, scoreBy_cons, hstep]
              have := hkmin m' (by omega)
              omega

theorem tail_isEmpty_iff (stack : List Nat) :
    stack.tail.isEmpty = true ↔ stack.length ≤ 1 := by
  cases stack with
  | nil => simp
  | cons a s => simp [List.isEmpty_iff, List.length_eq_zero]

/-- The stack loop of `start_loop` equals the spec's forward depth scan:
the stack's height plays the role of the depth counter, and the scan
reads the instructions after the current position in order. -/
theorem start_loop_scan_eq (ins : List Instruction) :
    ∀ (fuel ip : Nat) (stack : List Nat), ins.length - ip ≤ fuel →
      VirtualMachine.start_loop_scan ins fuel ip stack =
        (scanDepth isOpen isClose (ins.drop (ip + 1)) stack.length).map
          (fun k => ip + 1 + k) := by
  intro fuel
  induction fuel with
  | zero =>
    intro ip stack hf
    rw [List.drop_eq_nil_of_le (by omega)]
    rfl
  | succ fuel ih =>
    intro ip stack hf
    cases hx : ins[ip + 1]? with
    | none =>
      have hlen : ins.length ≤ ip + 1 := List.getElem?_eq_none_iff.mp hx
      rw [List.drop_eq_nil_of_le hlen]
      simp [VirtualMachine.start_loop_scan, hx, scanDepth]
    | some x =>
      obtain ⟨hlt, hget⟩ := List.getElem?_eq_some.mp hx
      have hdrop : ins.drop (ip + 1) = x :: ins.drop (ip + 1 + 1) := by
        rw [List.drop_eq_getElem_cons hlt, hget]
      rw [hdrop]
      cases x
      case JumpForward l c =>
        have hl : VirtualMachine.start_loop_scan ins (fuel + 1) ip stack =
            VirtualMachine.start_loop_scan ins fuel (ip + 1) ((ip + 1) :: stack) := by
          simp [VirtualMachine.start_loop_scan, hx]
        rw [hl, ih (ip + 1) ((ip + 1) :: stack) (by omega)]
        rw [scanDepth, if_pos (by simp [isOpen])]
        simp only [List.length_cons]
        cases hs : scanDepth isOpen isClose (ins.drop (ip + 1 + 1)) (stack.length + 1) with
        | none => simp [hs]
        | some k =>
          simp only [hs, Option.map_some', Option.some.injEq]
          try omega
      case JumpBack l c =>
        by_cases hemp : stack.tail.isEmpty = true
        · have hle : stack.length ≤ 1 := (tail_isEmpty_iff stack).mp hemp
          have hl : VirtualMachine.start_loop_scan ins (fuel + 1) ip stack =
              some (ip + 2) := by
            simp [VirtualMachine.start_loop_scan, hx, hemp]
          rw [hl, scanDepth, if_neg (by simp [isOpen]), if_pos (by simp [isClose]),
            if_pos hle]
          simp only [Option.map_some', Option.some.injEq]
          try omega
        · have hgt : ¬ stack.length ≤ 1 := fun h => hemp ((tail_isEmpty_iff stack).mpr h)
          have hl : VirtualMachine.start_loop_scan ins (fuel + 1) ip stack =
              VirtualMachine.start_loop_scan ins fuel (ip + 1) stack.tail := by
            simp [VirtualMachine.start_loop_scan, hx, hemp]
          rw [hl, ih (ip + 1) stack.tail (by omega)]
          rw [scanDepth, if_neg (by simp [isOpen]), if_pos (by simp [isClose]),
            if_neg hgt, List.length_tail]
          cases hs : scanDepth isOpen isClose (ins.drop (ip + 1 + 1)) (stack.length - 1) with
          | none => simp [hs]
          | some k =>
            simp only [hs, Option.map_some', Option.some.injEq]
            try omega
      all_goals {
        have hl : VirtualMachine.start_loop_scan ins (fuel + 1) ip stack =
            VirtualMachine.start_loop_scan ins fuel (ip + 1) stack := by
          simp [VirtualMachine.start_loop_scan, hx]
        rw [hl, ih (ip + 1) stack (by omega)]
        rw [scanDepth, if_neg (by simp [isOpen]), if_neg (by simp [isClose])]
        cases hs : scanDepth isOpen isClose (ins.drop (ip + 1 + 1)) stack.length with
        | none => simp [hs]
        | some k =>
          simp only [hs, Option.map_some', Option.some.injEq]
          try omega
      }

/-- The stack loop of `end_loop` equals the spec's backward depth scan:
walking the instructions before the current position from right to left
is walking the reversed prefix forward, with the bracket roles
swapped. -/
theorem end_loop_scan_eq (ins : List Instruction) :
    ∀ (fuel ip : Nat) (stack : List Nat), ip ≤ ins.length → ip + 1 ≤ fuel →
      VirtualMachine.end_loop_scan ins fuel ip stack =
        (scanDepth isClose isOpen ((ins.take ip).reverse) stack.length).map
          (fun k => ip - k + 1) := by
  intro fuel
  induction fuel with
  | zero =>
    intro ip stack hip hf
    exact absurd hf (by omega)
  | succ fuel ih =>
    intro ip stack hip hf
    match ip, hip, hf with
    | 0, _, _ => rfl
    | n + 1, hip, hf =>
      have hn : n < ins.length := by omega
      have hx : ins[n]? = some ins[n] := List.getElem?_eq_getElem hn
      have hrev : (ins.take (n + 1)).reverse = ins[n] :: (ins.take n).reverse := by
        rw [List.take_succ, hx]
        simp
      rw [hrev]
      cases hxi : ins[n]
      all_goals rw [hxi] at hx
      case JumpBack l c =>
        have hl : VirtualMachine.end_loop_scan ins (fuel + 1) (n + 1) stack =
            VirtualMachine.end_loop_scan ins fuel n (n :: stack) := by
          simp [VirtualMachine.end_loop_scan, hx]
        rw [hl, ih n (n :: stack) (by omega) (by omega)]
        rw [scanDepth, if_pos (by simp [isClose])]
        simp only [List.length_cons]
        cases hs : scanDepth isClose isOpen ((ins.take n).reverse) (stack.length + 1) with
        | none => simp [hs]
        | some k =>
          simp only [hs, Option.map_some', Option.some.injEq]
          omega
      case JumpForward l c =>
        by_cases hemp : stack.tail.isEmpty = true
        · have hle : stack.length ≤ 1 := (tail_isEmpty_iff stack).mp hemp
          have hl : VirtualMachine.end_loop_scan ins (fuel + 1) (n + 1) stack =
              some (n + 1) := by
            simp [VirtualMachine.end_loop_scan, hx, hemp]
          rw [hl, scanDepth, if_neg (by simp [isClose]), if_pos (by simp [isOpen]),
            if_pos hle]
          simp only [Option.map_some', Option.some.injEq]
          omega
        · have hgt : ¬ stack.length ≤ 1 := fun h => hemp ((tail_isEmpty_iff stack).mpr h)
          have hl : VirtualMachine.end_loop_scan ins (fuel + 1) (n + 1) stack =
              VirtualMachine.end_loop_scan ins fuel n stack.tail := by
            simp [VirtualMachine.end_loop_scan, hx, hemp]
          rw [hl, ih n stack.tail (by omega) (by omega)]
          rw [scanDepth, if_neg (by simp [isClose]), if_pos (by simp [isOpen]),
            if_neg hgt, List.length_tail]
          cases hs : scanDepth isClose isOpen ((ins.take n).reverse) (stack.length - 1) with
          | none => simp [hs]
          | some k =>
            simp only [hs, Option.map_some', Option.some.injEq]
            omega
      all_goals {
        have hl : VirtualMachine.end_loop_scan ins (fuel + 1) (n + 1) stack =
            VirtualMachine.end_loop_scan ins fuel n stack := by
          simp [VirtualMachine.end_loop_scan, hx]
        rw [hl, ih n stack (by omega) (by omega)]
        rw [scanDepth, if_neg (by simp [isClose]), if_neg (by simp [isOpen])]
        cases hs : scanDepth isClose isOpen ((ins.take n).reverse) stack.length with
        | none => simp [hs]
        | some k =>
          simp only [hs, Option.map_some', Option.some.injEq]
          omega
      }

theorem scoreBy_reverse (pos neg : Instruction → Bool) (xs : List Instruction) :
    scoreBy pos neg xs.reverse = scoreBy pos neg xs := by
  simp [scoreBy, List.map_reverse, List.sum_reverse]

theorem scanStep_eq_one (y : Instruction)
    (h : scanStep isOpen isClose y = 1) : ∃ l c, y = .JumpForward l c := by
  cases y <;> simp [scanStep, isOpen, isClose] at h ⊢

theorem scanStep_eq_neg_one (y : Instruction)
    (h : scanStep isOpen isClose y = -1) : ∃ l c, y = .JumpBack l c := by
  cases y <;> simp [scanStep, isOpen, isClose] at h ⊢

theorem score_take_of_le (xs : List Instruction) (q p : Nat) (h : q ≤ p) :
    score (xs.take p) = score (xs.take q) + score ((xs.drop q).take (p - q)) := by
  have hsplit : xs.take p = xs.take q ++ (xs.drop q).take (p - q) := by
    rw [← List.take_add]
    congr 1
    omega
  rw [hsplit, score, scoreBy_append, score, score]

/-- Prefixes of the reversed prefix before position `j` correspond to
suffixes of the instructions before `j`: the swapped-bracket depth of
the last `m` instructions before `j` is the bracket score up to `j - m`
minus the bracket score up to `j`. -/
theorem scoreBy_take_reverse_prefix (xs : List Instruction) (j m : Nat)
    (hj : j ≤ xs.length) (hm : m ≤ j) :
    scoreBy isClose isOpen (((xs.take j).reverse).take m) =
      score (xs.take (j - m)) - score (xs.take j) := by
  have hvlen : (xs.take j).length = j := by
    rw [List.length_take]
    omega
  have hdropm : (xs.take j).reverse.drop m = ((xs.take j).take (j - m)).reverse := by
    conv_rhs => rw [List.reverse_take]
    congr 1
    rw [hvlen]
    omega
  have htk : (xs.take j).take (j - m) = xs.take (j - m) := by
    rw [List.take_take]
    congr 1
    omega
  have hsplit : scoreBy isClose isOpen ((xs.take j).reverse.take m) +
      scoreBy isClose isOpen ((xs.take j).reverse.drop m) =
      scoreBy isClose isOpen (xs.take j).reverse := by
    rw [← scoreBy_append, List.take_append_drop]
  have hrev2 : scoreBy isClose isOpen (xs.take j).reverse = -score (xs.take j) := by
    rw [scoreBy_reverse, scoreBy_swap]
  have hdrop2 : scoreBy isClose isOpen ((xs.take j).reverse.drop m) =
      -score (xs.take (j - m)) := by
    rw [hdropm, htk, scoreBy_reverse, scoreBy_swap]
  omega

theorem score_take_succ (xs : List Instruction) (n : Nat) (x : Instruction)
    (h : xs[n]? = some x) :
    score (xs.take (n + 1)) = score (xs.take n) + scanStep isOpen isClose x :=
  scoreBy_take_succ isOpen isClose xs n x h

/-- On a balanced program, `start_loop` at a `JumpForward` whose cell is
0 finds the matching `JumpBack` and stops just past it, without running
off the instruction stream. -/
theorem loop_forward_correct (vm : VirtualMachine) (l c : Nat)
    (hbal : BalancedProgram vm.prg.ins)
    (hi : vm.prg.ins[vm.ip]? = some (.JumpForward l c))
    (hcell : vm.cells[vm.head]? = some 0) :
    ∃ j, MatchPair vm.prg.ins vm.ip j ∧
      vm.start_loop = .ok (j + 1, { vm with ip := j + 1 }) := by
  obtain ⟨hscore0, hpre⟩ := hbal
  obtain ⟨hlt, hgeti⟩ := List.getElem?_eq_some.mp hi
  have hstep_i : scanStep isOpen isClose (Instruction.JumpForward l c) = 1 := by
    simp [scanStep, isOpen]
  have htsucc : score (vm.prg.ins.take (vm.ip + 1)) =
      score (vm.prg.ins.take vm.ip) + 1 := by
    rw [score_take_succ vm.prg.ins vm.ip _ hi, hstep_i]
  have hpre_i : 0 ≤ score (vm.prg.ins.take vm.ip) := hpre vm.ip (by omega)
  have hdlen : (vm.prg.ins.drop (vm.ip + 1)).length =
      vm.prg.ins.length - (vm.ip + 1) := List.length_drop _ _
  have husuf : score (vm.prg.ins.drop (vm.ip + 1)) ≤ -(1 : Int) := by
    have hsplit := score_take_of_le vm.prg.ins (vm.ip + 1) vm.prg.ins.length (by omega)
    rw [List.take_length] at hsplit
    have htake_full : (vm.prg.ins.drop (vm.ip + 1)).take
        (vm.prg.ins.length - (vm.ip + 1)) = vm.prg.ins.drop (vm.ip + 1) := by
      rw [← hdlen, List.take_length]
    rw [htake_full] at hsplit
    omega
  have husuf' : scoreBy isOpen isClose (vm.prg.ins.drop (vm.ip + 1)) ≤
      -((1 : Nat) : Int) := by
    push_cast
    exact husuf
  obtain ⟨p, hp, hps⟩ :=
    scoreBy_reaches isOpen isClose (vm.prg.ins.drop (vm.ip + 1)) 1 (le_refl 1) husuf'
  obtain ⟨k, hk1, hklen, hkeq, hksc, hkmin⟩ :=
    scanDepth_finds isOpen isClose (vm.prg.ins.drop (vm.ip + 1)) 1 (le_refl 1)
      ⟨p, hp, hps⟩
  obtain ⟨k', rfl⟩ : ∃ k', k = k' + 1 := ⟨k - 1, by omega⟩
  have hksc' : score ((vm.prg.ins.drop (vm.ip + 1)).take (k' + 1)) = -1 := by
    push_cast at hksc
    exact hksc
  have hkmin' : ∀ m, m < k' + 1 →
      0 ≤ score ((vm.prg.ins.drop (vm.ip + 1)).take m) := by
    intro m hm
    have := hkmin m hm
    push_cast at this
    have h2 : 0 ≤ scoreBy isOpen isClose ((vm.prg.ins.drop (vm.ip + 1)).take m) := by
      omega
    exact h2
  have hk'lt : k' < (vm.prg.ins.drop (vm.ip + 1)).length := by omega
  obtain ⟨y, hy⟩ : ∃ y, (vm.prg.ins.drop (vm.ip + 1))[k']? = some y :=
    ⟨_, List.getElem?_eq_getElem hk'lt⟩
  have hk'succ : score ((vm.prg.ins.drop (vm.ip + 1)).take (k' + 1)) =
      score ((vm.prg.ins.drop (vm.ip + 1)).take k') + scanStep isOpen isClose y :=
    score_take_succ _ k' y hy
  have hstepy : scanStep isOpen isClose y = -1 := by
    rcases scanStep_trichotomy isOpen isClose y with h | h | h
    · exfalso
      have := hkmin' k' (by omega)
      omega
    · exfalso
      have := hkmin' k' (by omega)
      omega
    · exact h
  obtain ⟨l2, c2, rfl⟩ := scanStep_eq_neg_one y hstepy
  have hjget : vm.prg.ins[vm.ip + 1 + k']? = some (.JumpBack l2 c2) := by
    rw [← List.getElem?_drop]
    exact hy
  have hjlt : vm.ip + 1 + k' < vm.prg.ins.length := by omega
  refine ⟨vm.ip + 1 + k', ⟨by omega, hjlt, ⟨l, c, hi⟩, ⟨l2, c2, hjget⟩, ?_, ?_⟩, ?_⟩
  · have hsplit := score_take_of_le vm.prg.ins (vm.ip + 1) (vm.ip + 1 + k' + 1)
      (by omega)
    have harith : vm.ip + 1 + k' + 1 - (vm.ip + 1) = k' + 1 := by omega
    rw [harith] at hsplit
    rw [hsplit, hksc']
    omega
  · intro m hm1 hm2
    have hsplit := score_take_of_le vm.prg.ins (vm.ip + 1) m (by omega)
    have := hkmin' (m - (vm.ip + 1)) (by omega)
    omega
  · have hscan : VirtualMachine.start_loop_scan vm.prg.ins vm.prg.ins.length
        vm.ip [vm.ip] = some (vm.ip + 1 + (k' + 1)) := by
      rw [start_loop_scan_eq vm.prg.ins vm.prg.ins.length vm.ip [vm.ip] (by omega)]
      show (scanDepth isOpen isClose (vm.prg.ins.drop (vm.ip + 1)) 1).map
          (fun k => vm.ip + 1 + k) = _
      rw [hkeq]
      rfl
    show vm.start_loop = _
    unfold VirtualMachine.start_loop
    rw [hcell]
    simp [hscan]
    omega

/-- On a balanced program, `end_loop` at a `JumpBack` whose cell is
nonzero finds the matching `JumpForward` and stops just past it, without
running off the instruction stream. -/
theorem loop_backward_correct (vm : VirtualMachine) (l c cv : Nat)
    (hbal : BalancedProgram vm.prg.ins)
    (hi : vm.prg.ins[vm.ip]? = some (.JumpBack l c))
    (hcell : vm.cells[vm.head]? = some cv) (hcv : cv ≠ 0) :
    ∃ i, MatchPair vm.prg.ins i vm.ip ∧
      vm.end_loop = .ok (i + 1, { vm with ip := i + 1 }) := by
  obtain ⟨hscore0, hpre⟩ := hbal
  obtain ⟨hlt, hgeti⟩ := List.getElem?_eq_some.mp hi
  have hstep_j : scanStep isOpen isClose (Instruction.JumpBack l c) = -1 := by
    simp [scanStep, isOpen, isClose]
  have htsucc : score (vm.prg.ins.take (vm.ip + 1)) =
      score (vm.prg.ins.take vm.ip) - 1 := by
    rw [score_take_succ vm.prg.ins vm.ip _ hi, hstep_j]
    ring
  have hpre_j1 : 0 ≤ score (vm.prg.ins.take (vm.ip + 1)) := hpre (vm.ip + 1) (by omega)
  have hge1 : 1 ≤ score (vm.prg.ins.take vm.ip) := by omega
  have hrlen : ((vm.prg.ins.take vm.ip).reverse).length = vm.ip := by
    rw [List.length_reverse, List.length_take]
    omega
  have hrscore : scoreBy isClose isOpen ((vm.prg.ins.take vm.ip).reverse) ≤
      -((1 : Nat) : Int) := by
    rw [scoreBy_reverse, scoreBy_swap]
    push_cast
    omega
  obtain ⟨p, hp, hps⟩ := scoreBy_reaches isClose isOpen _ 1 (le_refl 1) hrscore
  obtain ⟨k, hk1, hklen, hkeq, hksc, hkmin⟩ :=
    scanDepth_finds isClose isOpen ((vm.prg.ins.take vm.ip).reverse) 1 (le_refl 1)
      ⟨p, hp, hps⟩
  rw [hrlen] at hklen
  have htrans : ∀ m, m ≤ vm.ip →
      scoreBy isClose isOpen (((vm.prg.ins.take vm.ip).reverse).take m) =
        score (vm.prg.ins.take (vm.ip - m)) - score (vm.prg.ins.take vm.ip) :=
    fun m hm => scoreBy_take_reverse_prefix vm.prg.ins vm.ip m (by omega) hm
  have hksc' : score (vm.prg.ins.take (vm.ip - k)) =
      score (vm.prg.ins.take vm.ip) - 1 := by
    have h1 := htrans k hklen
    rw [h1] at hksc
    push_cast at hksc
    omega
  have hmin' : ∀ m, m < k → score (vm.prg.ins.take vm.ip) ≤
      score (vm.prg.ins.take (vm.ip - m)) := by
    intro m hm
    have h1 := hkmin m hm
    rw [htrans m (by omega)] at h1
    push_cast at h1
    omega
  have hilt : vm.ip - k < vm.prg.ins.length := by omega
  obtain ⟨y, hy⟩ : ∃ y, vm.prg.ins[vm.ip - k]? = some y :=
    ⟨_, List.getElem?_eq_getElem hilt⟩
  have hisucc : score (vm.prg.ins.take (vm.ip - k + 1)) =
      score (vm.prg.ins.take (vm.ip - k)) + scanStep isOpen isClose y :=
    score_take_succ _ _ y hy
  have hup : score (vm.prg.ins.take vm.ip) ≤
      score (vm.prg.ins.take (vm.ip - k + 1)) := by
    have h1 := hmin' (k - 1) (by omega)
    have hi1 : vm.ip - (k - 1) = vm.ip - k + 1 := by omega
    rw [hi1] at h1
    exact h1
  have hstepy : scanStep isOpen isClose y = 1 := by
    rcases scanStep_trichotomy isOpen isClose y with h | h | h
    · exact h
    · exfalso
      omega
    · exfalso
      omega
  obtain ⟨l2, c2, rfl⟩ := scanStep_eq_one y hstepy
  refine ⟨vm.ip - k, ⟨by omega, hlt, ⟨l2, c2, hy⟩, ⟨l, c, hi⟩, ?_, ?_⟩, ?_⟩
  · omega
  · intro m' hm1 hm2
    rcases Nat.lt_or_ge m' vm.ip with hlt2 | hge2
    · have hmk : vm.ip - m' < k := by omega
      have h3 := hmin' (vm.ip - m') hmk
      have harw : vm.ip - (vm.ip - m') = m' := by omega
      rw [harw] at h3
      omega
    · have hm'eq : m' = vm.ip := by omega
      subst hm'eq
      omega
  · have hscan : VirtualMachine.end_loop_scan vm.prg.ins (vm.ip + 1) vm.ip [vm.ip] =
        some (vm.ip - k + 1) := by
      rw [end_loop_scan_eq vm.prg.ins (vm.ip + 1) vm.ip [vm.ip] (by omega) (le_refl _)]
      show (scanDepth isClose isOpen ((vm.prg.ins.take vm.ip).reverse) 1).map
          (fun kk => vm.ip - kk + 1) = _
      rw [hkeq]
      rfl
    show vm.end_loop = _
    unfold VirtualMachine.end_loop
    rw [hcell]
    simp [hscan, hcv]

/-- C1: on every balanced program, executing a `LoopStart` (`JumpForward`)
whose current cell is 0 sets the instruction pointer to the index just
after the matching `LoopEnd`, and executing a `LoopEnd` (`JumpBack`)
whose current cell is nonzero sets the instruction pointer to the index
just after the matching `LoopStart`; in both cases the scan terminates
within the instruction stream (it returns normally and the match lies
inside the program). -/
theorem claim_c1_loop_jumps :
    (∀ (vm : VirtualMachine) (l c : Nat),
      BalancedProgram vm.prg.ins →
      vm.prg.ins[vm.ip]? = some (.JumpForward l c) →
      vm.cells[vm.head]? = some 0 →
      ∃ j, MatchPair vm.prg.ins vm.ip j ∧
        vm.start_loop = .ok (j + 1, { vm with ip := j + 1 })) ∧
    (∀ (vm : VirtualMachine) (l c cv : Nat),
      BalancedProgram vm.prg.ins →
      vm.prg.ins[vm.ip]? = some (.JumpBack l c) →
      vm.cells[vm.head]? = some cv → cv ≠ 0 →
      ∃ i, MatchPair vm.prg.ins i vm.ip ∧
        vm.end_loop = .ok (i + 1, { vm with ip := i + 1 })) :=
  ⟨loop_forward_correct, loop_backward_correct⟩

/-- Witness for C1 on the program `"[]"`: the forward jump from
position 0 with a zero cell and the backward jump from position 1 with a
nonzero cell both land just past their matching bracket. -/
theorem claim_c1_loop_jumps_witness :
    (∃ j, MatchPair (Program.new "w" "[]").ins 0 j ∧
      (VirtualMachine.new 3 false (Program.new "w" "[]")).start_loop =
        .ok (j + 1,
          { VirtualMachine.new 3 false (Program.new "w" "[]") with ip := j + 1 })) ∧
    (∃ i, MatchPair (Program.new "w" "[]").ins i 1 ∧
      ({ VirtualMachine.new 3 false (Program.new "w" "[]") with
          cells := [1, 0, 0], ip := 1 }).end_loop =
        .ok (i + 1,
          { { VirtualMachine.new 3 false (Program.new "w" "[]") with
              cells := [1, 0, 0], ip := 1 } with ip := i + 1 })) :=
  ⟨claim_c1_loop_jumps.1 (VirtualMachine.new 3 false (Program.new "w" "[]")) 1 1
      (by decide) (by decide) (by decide),
    claim_c1_loop_jumps.2
      { VirtualMachine.new 3 false (Program.new "w" "[]") with cells := [1, 0, 0], ip := 1 }
      1 2 1 (by decide) (by decide) (by decide) (by decide)⟩

theorem score_nil : score [] = 0 := rfl

theorem score_cons (x : Instruction) (xs : List Instruction) :
    score (x :: xs) = scanStep isOpen isClose x + score xs :=
  scoreBy_cons isOpen isClose x xs

theorem scanStep_neutral (x : Instruction) (h1 : isOpen x = false)
    (h2 : isClose x = false) : scanStep isOpen isClose x = 0 := by
  simp [scanStep, h1, h2]

/-- The stack scan of `validate` accepts exactly when the bracket score
of the remaining instructions cancels the open brackets on the stack and
no intermediate prefix closes more than is open.  Only the height of the
stack matters. -/
theorem validateAux_ok_iff :
    ∀ (xs : List Instruction) (stack : List (Nat × Nat)),
      validateAux xs stack = .ok () ↔
        ((stack.length : Int) + score xs = 0 ∧
         ∀ p, p ≤ xs.length → 0 ≤ (stack.length : Int) + score (xs.take p)) := by
  intro xs
  induction xs with
  | nil =>
    intro stack
    cases stack with
    | nil => simp [validateAux, score_nil]
    | cons s rest =>
      obtain ⟨l, c⟩ := s
      constructor
      · intro h
        exact absurd h (by simp [validateAux])
      · rintro ⟨h1, _⟩
        rw [score_nil] at h1
        simp only [List.length_cons] at h1
        omega
  | cons x rest ih =>
    intro stack
    cases x
    case JumpForward l c =>
      have hunf : validateAux (Instruction.JumpForward l c :: rest) stack =
          validateAux rest ((l, c) :: stack) := rfl
      rw [hunf, ih ((l, c) :: stack)]
      have hstep : scanStep isOpen isClose (Instruction.JumpForward l c) = 1 := rfl
      constructor
      · rintro ⟨h1, h2⟩
        simp only [List.length_cons] at h1 h2
        constructor
        · rw [score_cons, hstep]
          omega
        · intro p hp
          match p with
          | 0 =>
            rw [List.take_zero, score_nil]
            omega
          | p' + 1 =>
            rw [List.take_succ_cons, score_cons, hstep]
            have := h2 p' (by simpa using hp)
            omega
      · rintro ⟨h1, h2⟩
        rw [score_cons, hstep] at h1
        simp only [List.length_cons]
        constructor
        · omega
        · intro p hp
          have := h2 (p + 1) (by simpa using hp)
          rw [List.take_succ_cons, score_cons, hstep] at this
          omega
    case JumpBack l c =>
      have hstep : scanStep isOpen isClose (Instruction.JumpBack l c) = -1 := rfl
      cases stack with
      | nil =>
        constructor
        · intro h
          exact absurd h (by simp [validateAux])
        · rintro ⟨h1, h2⟩
          exfalso
          have := h2 1 (by simp)
          rw [List.take_succ_cons, List.take_zero, score_cons, score_nil, hstep] at this
          simp only [List.length_nil] at this
          omega
      | cons s stack' =>
        have hunf : validateAux (Instruction.JumpBack l c :: rest) (s :: stack') =
            validateAux rest stack' := rfl
        rw [hunf, ih stack']
        constructor
        · rintro ⟨h1, h2⟩
          simp only [List.length_cons]
          constructor
          · rw [score_cons, hstep]
            omega
          · intro p hp
            match p with
            | 0 =>
              rw [List.take_zero, score_nil]
              omega
            | p' + 1 =>
              rw [List.take_succ_cons, score_cons, hstep]
              have := h2 p' (by simpa using hp)
              omega
        · rintro ⟨h1, h2⟩
          rw [score_cons, hstep] at h1
          simp only [List.length_cons] at h1 h2
          constructor
          · omega
          · intro p hp
            have := h2 (p + 1) (by simpa using hp)
            rw [List.take_succ_cons, score_cons, hstep] at this
            omega
    all_goals {
      simp only [validateAux]
      rw [ih stack]
      constructor
      · rintro ⟨h1, h2⟩
        constructor
        · rw [score_cons]
          simp [scanStep, isOpen, isClose]
          omega
        · intro p hp
          match p with
          | 0 =>
            rw [List.take_zero, score_nil]
            omega
          | p' + 1 =>
            rw [List.take_succ_cons, score_cons]
            simp [scanStep, isOpen, isClose]
            have := h2 p' (by simpa using hp)
            omega
      · rintro ⟨h1, h2⟩
        rw [score_cons] at h1
        simp [scanStep, isOpen, isClose] at h1
        constructor
        · omega
        · intro p hp
          have := h2 (p + 1) (by simpa using hp)
          rw [List.take_succ_cons, score_cons] at this
          simp [scanStep, isOpen, isClose] at this
          omega
    }

/-- C2: `validate` succeeds exactly on programs whose brackets are
well-nested in the sense of the standard parenthesis-matching law. -/
theorem claim_c2_validate_iff_balanced (p : Program) :
    p.validate = .ok () ↔ BalancedProgram p.ins := by
  have h := validateAux_ok_iff p.ins []
  simp only [List.length_nil, Nat.cast_zero, zero_add] at h
  exact h

theorem preserves_refl (vm : VirtualMachine) : preserves vm vm :=
  ⟨rfl, rfl, rfl, rfl⟩

theorem preserves_trans {a b c : VirtualMachine}
    (h1 : preserves a b) (h2 : preserves b c) : preserves a c :=
  ⟨h2.1.trans h1.1, h2.2.1.trans h1.2.1, h2.2.2.1.trans h1.2.2.1,
    h2.2.2.2.trans h1.2.2.2⟩

theorem move_head_left_preserves (vm : VirtualMachine) (n : Nat)
    (vm' : VirtualMachine) (h : vm.move_head_left = .ok (n, vm')) :
    preserves vm vm' := by
  unfold VirtualMachine.move_head_left at h
  split at h
  · simp at h
  · simp only [OpResult.ok.injEq, Prod.mk.injEq] at h
    rw [← h.2]
    exact ⟨rfl, rfl, rfl, rfl⟩

theorem move_head_right_preserves (vm : VirtualMachine) (n : Nat)
    (vm' : VirtualMachine) (h : vm.move_head_right = .ok (n, vm')) :
    preserves vm vm' := by
  unfold VirtualMachine.move_head_right at h
  split at h
  · simp at h
  · simp only [OpResult.ok.injEq, Prod.mk.injEq] at h
    rw [← h.2]
    exact ⟨rfl, rfl, rfl, rfl⟩

theorem input_preserves (vm : VirtualMachine) (r : List Nat) (n : Nat)
    (vm' : VirtualMachine) (r' : List Nat) (h : vm.input r = .ok (n, vm', r')) :
    preserves vm vm' := by
  cases r with
  | nil => simp [VirtualMachine.input] at h
  | cons b rest =>
    simp only [VirtualMachine.input] at h
    split at h
    · simp only [OpResult.ok.injEq, Prod.mk.injEq] at h
      rw [← h.2.1]
      exact ⟨rfl, by simp, rfl, rfl⟩
    · simp at h

theorem output_preserves (vm : VirtualMachine) (w : List Nat) (n : Nat)
    (vm' : VirtualMachine) (w' : List Nat) (h : vm.output w = .ok (n, vm', w')) :
    preserves vm vm' := by
  unfold VirtualMachine.output at h
  split at h
  · simp at h
  · simp only [OpResult.ok.injEq, Prod.mk.injEq] at h
    rw [← h.2.1]
    exact ⟨rfl, rfl, rfl, rfl⟩

theorem start_loop_preserves (vm : VirtualMachine) (n : Nat)
    (vm' : VirtualMachine) (h : vm.start_loop = .ok (n, vm')) :
    preserves vm vm' := by
  unfold VirtualMachine.start_loop at h
  split at h
  · simp at h
  · split at h
    · split at h
      · simp only [OpResult.ok.injEq, Prod.mk.injEq] at h
        rw [← h.2]
        exact ⟨rfl, rfl, rfl, rfl⟩
      · simp at h
    · simp only [OpResult.ok.injEq, Prod.mk.injEq] at h
      rw [← h.2]
      exact ⟨rfl, rfl, rfl, rfl⟩

theorem end_loop_preserves (vm : VirtualMachine) (n : Nat)
    (vm' : VirtualMachine) (h : vm.end_loop = .ok (n, vm')) :
    preserves vm vm' := by
  unfold VirtualMachine.end_loop at h
  split at h
  · simp at h
  · split at h
    · split at h
      · simp only [OpResult.ok.injEq, Prod.mk.injEq] at h
        rw [← h.2]
        exact ⟨rfl, rfl, rfl, rfl⟩
      · simp at h
    · simp only [OpResult.ok.injEq, Prod.mk.injEq] at h
      rw [← h.2]
      exact ⟨rfl, rfl, rfl, rfl⟩

theorem step_preserves (vm : VirtualMachine) (inp out : List Nat)
    (vm' : VirtualMachine) (inp' out' : List Nat)
    (h : VirtualMachine.step vm inp out = .next vm' inp' out') :
    preserves vm vm' := by
  cases hx : vm.prg.ins[vm.ip]? with
  | none => simp [VirtualMachine.step, hx] at h
  | some i =>
    cases i
    case IncrementDP l c =>
      simp only [VirtualMachine.step, hx, StepOut.next.injEq] at h
      rw [← h.1]
      exact ⟨rfl, rfl, rfl, rfl⟩
    case DecrementDP l c =>
      simp only [VirtualMachine.step, hx] at h
      split at h
      · simp at h
      · simp only [StepOut.next.injEq] at h
        rw [← h.1]
        exact ⟨rfl, rfl, rfl, rfl⟩
    case IncrementByte l c =>
      cases hc : vm.cells[vm.head]? with
      | none => simp [VirtualMachine.step, hx, hc] at h
      | some cc =>
        simp only [VirtualMachine.step, hx, hc, StepOut.next.injEq] at h
        rw [← h.1]
        exact ⟨rfl, by simp, rfl, rfl⟩
    case DecrementByte l c =>
      cases hc : vm.cells[vm.head]? with
      | none => simp [VirtualMachine.step, hx, hc] at h
      | some cc =>
        simp only [VirtualMachine.step, hx, hc, StepOut.next.injEq] at h
        rw [← h.1]
        exact ⟨rfl, by simp, rfl, rfl⟩
    case Output l c =>
      cases ho : vm.output out with
      | ok val =>
        obtain ⟨n2, vm2, out2⟩ := val
        simp only [VirtualMachine.step, hx, ho, StepOut.next.injEq] at h
        rw [← h.1]
        exact output_preserves vm out n2 vm2 out2 ho
      | fail e =>
        simp only [VirtualMachine.step, hx, ho, StepOut.next.injEq] at h
        rw [← h.1]
        exact preserves_refl vm
      | panicked => simp [VirtualMachine.step, hx, ho] at h
    case Input l c =>
      cases ho : vm.input inp with
      | ok val =>
        obtain ⟨n2, vm2, inp2⟩ := val
        simp only [VirtualMachine.step, hx, ho, StepOut.next.injEq] at h
        rw [← h.1]
        exact input_preserves vm inp n2 vm2 inp2 ho
      | fail e =>
        simp only [VirtualMachine.step, hx, ho, StepOut.next.injEq] at h
        rw [← h.1]
        exact preserves_refl vm
      | panicked => simp [VirtualMachine.step, hx, ho] at h
    case JumpForward l c =>
      cases ho : vm.start_loop with
      | ok val =>
        obtain ⟨n2, vm2⟩ := val
        simp only [VirtualMachine.step, hx, ho, StepOut.next.injEq] at h
        rw [← h.1]
        exact start_loop_preserves vm n2 vm2 ho
      | fail e => simp [VirtualMachine.step, hx, ho] at h
      | panicked => simp [VirtualMachine.step, hx, ho] at h
    case JumpBack l c =>
      cases ho : vm.end_loop with
      | ok val =>
        obtain ⟨n2, vm2⟩ := val
        simp only [VirtualMachine.step, hx, ho, StepOut.next.injEq] at h
        rw [← h.1]
        exact end_loop_preserves vm n2 vm2 ho
      | fail e => simp [VirtualMachine.step, hx, ho] at h
      | panicked => simp [VirtualMachine.step, hx, ho] at h
    case Comment l c ch =>
      simp only [VirtualMachine.step, hx, StepOut.next.injEq] at h
      rw [← h.1]
      exact ⟨rfl, rfl, rfl, rfl⟩

theorem step_halt (vm : VirtualMachine) (inp out : List Nat) (r : RunResult)
    (h : VirtualMachine.step vm inp out = .halt r) :
    r = .panicked ∨ ∃ e, r = .vmerr e vm inp out := by
  cases hx : vm.prg.ins[vm.ip]? with
  | none =>
    simp only [VirtualMachine.step, hx, StepOut.halt.injEq] at h
    exact Or.inl h.symm
  | some i =>
    cases i
    case IncrementDP l c => simp [VirtualMachine.step, hx] at h
    case DecrementDP l c =>
      simp only [VirtualMachine.step, hx] at h
      split at h
      · simp only [StepOut.halt.injEq] at h
        exact Or.inl h.symm
      · simp at h
    case IncrementByte l c =>
      cases hc : vm.cells[vm.head]? with
      | none =>
        simp only [VirtualMachine.step, hx, hc, StepOut.halt.injEq] at h
        exact Or.inl h.symm
      | some cc => simp [VirtualMachine.step, hx, hc] at h
    case DecrementByte l c =>
      cases hc : vm.cells[vm.head]? with
      | none =>
        simp only [VirtualMachine.step, hx, hc, StepOut.halt.injEq] at h
        exact Or.inl h.symm
      | some cc => simp [VirtualMachine.step, hx, hc] at h
    case Output l c =>
      cases ho : vm.output out with
      | ok val =>
        obtain ⟨n2, vm2, out2⟩ := val
        simp [VirtualMachine.step, hx, ho] at h
      | fail e => simp [VirtualMachine.step, hx, ho] at h
      | panicked =>
        simp only [VirtualMachine.step, hx, ho, StepOut.halt.injEq] at h
        exact Or.inl h.symm
    case Input l c =>
      cases ho : vm.input inp with
      | ok val =>
        obtain ⟨n2, vm2, inp2⟩ := val
        simp [VirtualMachine.step, hx, ho] at h
      | fail e => simp [VirtualMachine.step, hx, ho] at h
      | panicked =>
        simp only [VirtualMachine.step, hx, ho, StepOut.halt.injEq] at h
        exact Or.inl h.symm
    case JumpForward l c =>
      cases ho : vm.start_loop with
      | ok val =>
        obtain ⟨n2, vm2⟩ := val
        simp [VirtualMachine.step, hx, ho] at h
      | fail e =>
        simp only [VirtualMachine.step, hx, ho, StepOut.halt.injEq] at h
        exact Or.inr ⟨e, h.symm⟩
      | panicked =>
        simp only [VirtualMachine.step, hx, ho, StepOut.halt.injEq] at h
        exact Or.inl h.symm
    case JumpBack l c =>
      cases ho : vm.end_loop with
      | ok val =>
        obtain ⟨n2, vm2⟩ := val
        simp [VirtualMachine.step, hx, ho] at h
      | fail e =>
        simp only [VirtualMachine.step, hx, ho, StepOut.halt.injEq] at h
        exact Or.inr ⟨e, h.symm⟩
      | panicked =>
        simp only [VirtualMachine.step, hx, ho, StepOut.halt.injEq] at h
        exact Or.inl h.symm
    case Comment l c ch => simp [VirtualMachine.step, hx] at h

/-- Invariant of the execution loop: a run returning `Ok` or an error
leaves the program, tape length, size and growable flag unchanged, and a
run returning `Ok` has pushed the instruction pointer to (at least) the
end of the program. -/
theorem interpretFuel_runs :
    ∀ (fuel : Nat) (vm : VirtualMachine) (inp out : List Nat) (r : RunResult),
      VirtualMachine.interpretFuel fuel vm inp out = some r →
      (∀ vm' i o, r = .ok vm' i o → preserves vm vm' ∧ vm.prg.ins.length ≤ vm'.ip) ∧
      (∀ e vm' i o, r = .vmerr e vm' i o → preserves vm vm') := by
  intro fuel
  induction fuel with
  | zero =>
    intro vm inp out r h
    simp [VirtualMachine.interpretFuel] at h
  | succ n ih =>
    intro vm inp out r h
    simp only [VirtualMachine.interpretFuel] at h
    split at h
    · simp only [Option.some.injEq] at h
      subst h
      constructor
      · intro vm' i o hr
        simp only [RunResult.ok.injEq] at hr
        rw [← hr.1]
        refine ⟨preserves_refl vm, by omega⟩
      · intro e vm' i o hr
        simp at hr
    · cases hs : VirtualMachine.step vm inp out with
      | next vm2 inp2 out2 =>
        rw [hs] at h
        have hpres := step_preserves vm inp out vm2 inp2 out2 hs
        have ihh := ih vm2 inp2 out2 r h
        constructor
        · intro vm' i o hr
          obtain ⟨hp, hlen⟩ := ihh.1 vm' i o hr
          refine ⟨preserves_trans hpres hp, ?_⟩
          have : vm2.prg = vm.prg := hpres.1
          rw [← this]
          exact hlen
        · intro e vm' i o hr
          exact preserves_trans hpres (ihh.2 e vm' i o hr)
      | halt r2 =>
        rw [hs] at h
        simp only [Option.some.injEq] at h
        subst h
        rcases step_halt vm inp out _ hs with hpan | ⟨e, heq⟩
        · subst hpan
          constructor
          · intro vm' i o hr
            simp at hr
          · intro e vm' i o hr
            simp at hr
        · subst heq
          constructor
          · intro vm' i o hr
            simp at hr
          · intro e' vm' i o hr
            simp only [RunResult.vmerr.injEq] at hr
            rw [← hr.2.1]
            exact preserves_refl vm

/-- C3 (code evaluated at the failing inputs): on a growable 1-cell
machine with the head at the last valid index, `move_head_right` fails
with a tape-bounds error instead of growing the tape; and the
`MoveRight` arm of `interpret` performs no bounds check at all — on a
non-growable 1-cell machine it succeeds, moving the head out of range,
instead of failing with a tape-bounds error. -/
theorem claim_c3_move_right_code :
    VirtualMachine.move_head_right
        (VirtualMachine.new 1 true (Program.new "t" ">")) = .fail .tapeBounds ∧
    VirtualMachine.interpret 2
        (VirtualMachine.new 1 false (Program.new "t" ">")) [] [] =
      some (.ok
        { size := 1, growable := false, cells := [0], ip := 1, head := 1,
          prg := Program.new "t" ">" } [] []) :=
  ⟨rfl, rfl⟩

/-- C4 (code evaluated at the failing input): the `MoveLeft` arm of
`interpret` decrements the head with no zero check, so on a fresh
machine it hits a `usize` underflow (a Rust panic) instead of failing
with a tape-bounds error; the bounds-checked behaviour the claim
describes lives in `move_head_left`, which `interpret` does not call. -/
theorem claim_c4_move_left_code :
    VirtualMachine.interpret 2
        (VirtualMachine.new 3 false (Program.new "t" "<")) [] [] =
      some .panicked ∧
    VirtualMachine.move_head_left
        (VirtualMachine.new 3 false (Program.new "t" "<")) = .fail .tapeBounds :=
  ⟨rfl, rfl⟩

/-- C5 (code evaluated at the failing input): interpreting the program
`","` with an exhausted input source never terminates, whatever the
fuel — `interpret` discards the read error and leaves the pointer in
place, so the same failed read is retried forever; in particular no
`readError` is ever returned to the caller. -/
theorem claim_c5_input_retries (fuel : Nat) :
    VirtualMachine.interpret fuel
      (VirtualMachine.new 3 false (Program.new "t" ",")) [] [] = none := by
  induction fuel with
  | zero => rfl
  | succ n ih =>
    have hstep : VirtualMachine.interpret (n + 1)
        (VirtualMachine.new 3 false (Program.new "t" ",")) [] [] =
        VirtualMachine.interpret n
          (VirtualMachine.new 3 false (Program.new "t" ",")) [] [] := rfl
    rw [hstep]
    exact ih

/-- C6 counterexample: on a machine bound to an empty program, a first
`interpret` runs to completion returning `Ok` with the machine
unchanged, and the identical second call returns `Ok` again rather than
`AlreadyExecutedError`. -/
theorem claim_c6_counterexample :
    VirtualMachine.interpret 1
        (VirtualMachine.new 3 false (Program.new "t" "")) [] [] =
      some (.ok (VirtualMachine.new 3 false (Program.new "t" "")) [] []) ∧
    VirtualMachine.interpret 1
        (VirtualMachine.new 3 false (Program.new "t" "")) [] [] ≠
      some (.vmerr .alreadyExecuted
        (VirtualMachine.new 3 false (Program.new "t" "")) [] []) :=
  ⟨rfl, by decide⟩

/-- C6 amended: for every machine bound to a program with at least one
instruction, once `interpret` has run to completion a second call fails
immediately with `AlreadyExecutedError`, returning the machine — tape,
head and pointer — exactly as the first run left it. -/
theorem claim_c6_one_shot (fuel fuel2 : Nat) (vm : VirtualMachine)
    (inp out : List Nat) (vm' : VirtualMachine) (inp' out' inp2 out2 : List Nat)
    (hne : vm.prg.ins ≠ [])
    (h : VirtualMachine.interpret fuel vm inp out = some (.ok vm' inp' out')) :
    VirtualMachine.interpret fuel2 vm' inp2 out2 =
      some (.vmerr .alreadyExecuted vm' inp2 out2) := by
  unfold VirtualMachine.interpret at h
  split at h
  · simp at h
  · obtain ⟨⟨hprg, _, _, _⟩, hip⟩ :=
      (interpretFuel_runs fuel vm inp out _ h).1 vm' inp' out' rfl
    have hlen : 0 < vm.prg.ins.length := List.length_pos.mpr hne
    have hip' : vm'.ip ≠ 0 := by omega
    unfold VirtualMachine.interpret
    rw [if_pos hip']

/-- Witness for C6: running `"+"` to completion and calling `interpret`
again returns `AlreadyExecutedError` with the post-run machine intact. -/
theorem claim_c6_one_shot_witness :
    (VirtualMachine.new 3 false (Program.new "t" "+")).prg.ins ≠ [] ∧
    VirtualMachine.interpret 5
        { size := 3, growable := false, cells := [1, 0, 0], ip := 1, head := 0,
          prg := Program.new "t" "+" } [] [] =
      some (.vmerr .alreadyExecuted
        { size := 3, growable := false, cells := [1, 0, 0], ip := 1, head := 0,
          prg := Program.new "t" "+" } [] []) :=
  ⟨by decide,
    claim_c6_one_shot 2 5 (VirtualMachine.new 3 false (Program.new "t" "+")) [] []
      { size := 3, growable := false, cells := [1, 0, 0], ip := 1, head := 0,
        prg := Program.new "t" "+" } [] [] [] [] (by decide) rfl⟩

/-- C8: increment and decrement of a byte cell are mutually inverse on
cell values and wrap at the 0-255 boundary. -/
theorem claim_c8_wrapping (v : Nat) (hv : v < 256) :
    (wrapping_decrement (wrapping_increment v) = v ∧
      wrapping_increment (wrapping_decrement v) = v) ∧
    wrapping_increment 255 = 0 ∧ wrapping_decrement 0 = 255 := by
  refine ⟨⟨?_, ?_⟩, rfl, rfl⟩ <;>
    · unfold wrapping_increment wrapping_decrement
      omega

theorem claim_c8_wrapping_witness :
    7 < 256 ∧ ((wrapping_decrement (wrapping_increment 7) = 7 ∧
      wrapping_increment (wrapping_decrement 7) = 7) ∧
      wrapping_increment 255 = 0 ∧ wrapping_decrement 0 = 255) :=
  ⟨by decide, claim_c8_wrapping 7 (by decide)⟩

/-- C10: a machine bound to an empty program returns `Ok` immediately on
every invocation of `interpret`, leaving the machine and both streams
untouched; since the already-executed check only tests `ip ≠ 0` and `ip`
stays 0, repeated calls never return `AlreadyExecutedError`. -/
theorem claim_c10_empty_program (fuel : Nat) (vm : VirtualMachine)
    (inp out : List Nat) (hprg : vm.prg.ins = []) (hip : vm.ip = 0) :
    VirtualMachine.interpret (fuel + 1) vm inp out = some (.ok vm inp out) := by
  unfold VirtualMachine.interpret
  rw [if_neg (by omega)]
  unfold VirtualMachine.interpretFuel
  rw [if_pos (by simp [hprg])]

theorem claim_c10_empty_program_witness :
    (VirtualMachine.new 3 false (Program.new "t" "")).prg.ins = [] ∧
    (VirtualMachine.new 3 false (Program.new "t" "")).ip = 0 ∧
    VirtualMachine.interpret 1
        (VirtualMachine.new 3 false (Program.new "t" "")) [] [] =
      some (.ok (VirtualMachine.new 3 false (Program.new "t" "")) [] []) :=
  ⟨rfl, rfl, claim_c10_empty_program 0 _ [] [] rfl rfl⟩

/-- C9: the tape length equals the size fixed at construction (the
requested size, or 30000 when 0 was requested), and no operation — head
moves, byte I/O, loop jumps, or a whole `interpret` run — ever adds or
removes a cell, even when the growable flag is true. -/
theorem claim_c9_tape_length :
    (∀ (size : Nat) (g : Bool) (p : Program),
      (VirtualMachine.new size g p).cells.length = (VirtualMachine.new size g p).size ∧
      (VirtualMachine.new size g p).size = if size = 0 then 30000 else size) ∧
    (∀ vm n vm', VirtualMachine.move_head_left vm = .ok (n, vm') →
      vm'.cells.length = vm.cells.length ∧ vm'.size = vm.size) ∧
    (∀ vm n vm', VirtualMachine.move_head_right vm = .ok (n, vm') →
      vm'.cells.length = vm.cells.length ∧ vm'.size = vm.size) ∧
    (∀ vm r n vm' r', VirtualMachine.input vm r = .ok (n, vm', r') →
      vm'.cells.length = vm.cells.length ∧ vm'.size = vm.size) ∧
    (∀ vm w n vm' w', VirtualMachine.output vm w = .ok (n, vm', w') →
      vm'.cells.length = vm.cells.length ∧ vm'.size = vm.size) ∧
    (∀ vm n vm', VirtualMachine.start_loop vm = .ok (n, vm') →
      vm'.cells.length = vm.cells.length ∧ vm'.size = vm.size) ∧
    (∀ vm n vm', VirtualMachine.end_loop vm = .ok (n, vm') →
      vm'.cells.length = vm.cells.length ∧ vm'.size = vm.size) ∧
    (∀ fuel vm inp out vm' i o,
      VirtualMachine.interpret fuel vm inp out = some (.ok vm' i o) →
      vm'.cells.length = vm.cells.length ∧ vm'.size = vm.size) ∧
    (∀ fuel vm inp out e vm' i o,
      VirtualMachine.interpret fuel vm inp out = some (.vmerr e vm' i o) →
      vm'.cells.length = vm.cells.length ∧ vm'.size = vm.size) := by
  refine ⟨?_, ?_, ?_, ?_, ?_, ?_, ?_, ?_, ?_⟩
  · intro size g p
    constructor
    · simp [VirtualMachine.new]
    · rfl
  · intro vm n vm' h
    have hp := move_head_left_preserves vm n vm' h
    exact ⟨hp.2.1, hp.2.2.1⟩
  · intro vm n vm' h
    have hp := move_head_right_preserves vm n vm' h
    exact ⟨hp.2.1, hp.2.2.1⟩
  · intro vm r n vm' r' h
    have hp := input_preserves vm r n vm' r' h
    exact ⟨hp.2.1, hp.2.2.1⟩
  · intro vm w n vm' w' h
    have hp := output_preserves vm w n vm' w' h
    exact ⟨hp.2.1, hp.2.2.1⟩
  · intro vm n vm' h
    have hp := start_loop_preserves vm n vm' h
    exact ⟨hp.2.1, hp.2.2.1⟩
  · intro vm n vm' h
    have hp := end_loop_preserves vm n vm' h
    exact ⟨hp.2.1, hp.2.2.1⟩
  · intro fuel vm inp out vm' i o h
    unfold VirtualMachine.interpret at h
    split at h
    · simp at h
    · have hp := ((interpretFuel_runs fuel vm inp out _ h).1 vm' i o rfl).1
      exact ⟨hp.2.1, hp.2.2.1⟩
  · intro fuel vm inp out e vm' i o h
    unfold VirtualMachine.interpret at h
    split at h
    · simp only [Option.some.injEq, RunResult.vmerr.injEq] at h
      rw [← h.2.1]
      exact ⟨rfl, rfl⟩
    · have hp := (interpretFuel_runs fuel vm inp out _ h).2 e vm' i o rfl
      exact ⟨hp.2.1, hp.2.2.1⟩

/-- Witness for C9 on a concrete 3-cell machine: construction size and a
successful `move_head_left` both leave the tape at 3 cells. -/
theorem claim_c9_tape_length_witness :
    ((VirtualMachine.new 3 false (Program.new "t" "")).cells.length =
        (VirtualMachine.new 3 false (Program.new "t" "")).size ∧
      (VirtualMachine.new 3 false (Program.new "t" "")).size =
        if (3 : Nat) = 0 then 30000 else 3) ∧
    VirtualMachine.move_head_left
        { size := 3, growable := false, cells := [0, 0, 0], ip := 0, head := 1,
          prg := Program.new "t" "" } =
      .ok (1,
        { size := 3, growable := false, cells := [0, 0, 0], ip := 1,
          head := 0, prg := Program.new "t" "" }) ∧
    ({ size := 3, growable := false, cells := [0, 0, 0], ip := 1, head := 0,
          prg := Program.new "t" "" } : VirtualMachine).cells.length =
      ({ size := 3, growable := false, cells := [0, 0, 0], ip := 0, head := 1,
            prg := Program.new "t" "" } : VirtualMachine).cells.length :=
  ⟨claim_c9_tape_length.1 3 false (Program.new "t" ""), rfl,
    (claim_c9_tape_length.2.1
      { size := 3, growable := false, cells := [0, 0, 0], ip := 0, head := 1,
        prg := Program.new "t" "" } 1
      { size := 3, growable := false, cells := [0, 0, 0], ip := 1, head := 0,
        prg := Program.new "t" "" } rfl).1⟩

/-- Indexing into a flattened list of lists: the element at offset
(total length of the first `i` sublists) + `j` is the `j`-th element of
the `i`-th sublist. -/
theorem flatten_getElem (ls : List (List Instruction)) :
    ∀ (i j : Nat) (l : List Instruction) (b : Instruction),
      ls[i]? = some l → l[j]? = some b →
      ls.flatten[(((ls.take i).map List.length).sum + j)]? = some b := by
  induction ls with
  | nil =>
    intro i j l b h1 _
    simp at h1
  | cons hd tl ih =>
    intro i j l b h1 h2
    match i with
    | 0 =>
      simp only [List.getElem?_cons_zero, Option.some.injEq] at h1
      subst h1
      have hj : j < hd.length := (List.getElem?_eq_some.mp h2).1
      rw [List.flatten_cons, List.take_zero, List.map_nil, List.sum_nil, Nat.zero_add,
        List.getElem?_append_left hj]
      exact h2
    | i' + 1 =>
      simp only [List.getElem?_cons_succ] at h1
      rw [List.flatten_cons, List.take_succ_cons, List.map_cons, List.sum_cons]
      have hle : hd.length ≤ hd.length + (((tl.take i').map List.length).sum + j) := by
        omega
      rw [show hd.length + ((tl.take i').map List.length).sum + j =
          hd.length + (((tl.take i').map List.length).sum + j) from by omega]
      rw [List.getElem?_append_right hle]
      rw [show hd.length + (((tl.take i').map List.length).sum + j) - hd.length =
          ((tl.take i').map List.length).sum + j from by omega]
      exact ih i' j l b h1 h2

/-- The per-line instruction lists produced by `Program::new` have the
same lengths as the lines themselves. -/
theorem parse_line_lengths (ls : List (List Char)) (i : Nat)
    (f : Nat × List Char → List Instruction)
    (hf : ∀ p, (f p).length = p.2.length) :
    ((ls.enum.map f).take i).map List.length = (ls.take i).map List.length := by
  rw [← List.map_take, List.map_map]
  have h1 : (List.length ∘ f) = fun p : Nat × List Char => p.2.length := by
    funext p
    exact hf p
  rw [h1]
  have h2 : (fun p : Nat × List Char => p.2.length) =
      (List.length ∘ Prod.snd) := rfl
  rw [h2, ← List.map_map, List.map_take, List.enum_map_snd, List.map_take]

/-- C7 amended: parsing maps each character of each physical line to
exactly one instruction via the fixed 8-symbol table (any other
character becomes a `Comment`), tagged with 1-based line and column
numbers that reset at each line; it cannot fail, and no character of any
line is dropped — but the line-break characters themselves, which
delimit the lines, produce no instruction at all. -/
theorem claim_c7_parse (filename content : String) :
    (Program.new filename content).ins.length =
      ((linesOf content.toList).map List.length).sum ∧
    (∀ (i j : Nat) (ln : List Char) (ch : Char),
      (linesOf content.toList)[i]? = some ln → ln[j]? = some ch →
      (Program.new filename content).ins[
          (((linesOf content.toList).take i).map List.length).sum + j]? =
        some (Instruction.try_from (i + 1) (j + 1) ch)) ∧
    (∀ (l c : Nat) (ch : Char), ch ≠ '>' → ch ≠ '<' → ch ≠ '+' → ch ≠ '-' →
      ch ≠ '.' → ch ≠ ',' → ch ≠ '[' → ch ≠ ']' →
      Instruction.try_from l c ch = .Comment l c ch) := by
  have hf : ∀ p : Nat × List Char,
      ((fun p : Nat × List Char =>
        p.2.enum.map (fun q => Instruction.try_from (p.1 + 1) (q.1 + 1) q.2)) p).length =
      p.2.length := by
    intro p
    simp [List.enum_length]
  refine ⟨?_, ?_, ?_⟩
  · show (((linesOf content.toList).enum.map _).flatten).length = _
    rw [List.length_flatten]
    have h := parse_line_lengths (linesOf content.toList)
      (linesOf content.toList).length _ hf
    rw [List.take_length] at h
    have hlen : ((linesOf content.toList).enum.map (fun p : Nat × List Char =>
        p.2.enum.map (fun q => Instruction.try_from (p.1 + 1) (q.1 + 1) q.2))).length =
        (linesOf content.toList).length := by
      simp [List.enum_length]
    rw [← hlen, List.take_length] at h
    rw [h]
  · intro i j ln ch h1 h2
    have hm : ((linesOf content.toList).enum.map (fun p : Nat × List Char =>
        p.2.enum.map (fun q => Instruction.try_from (p.1 + 1) (q.1 + 1) q.2)))[i]? =
        some (ln.enum.map (fun q => Instruction.try_from (i + 1) (q.1 + 1) q.2)) := by
      rw [List.getElem?_map, List.getElem?_enum, h1]
      rfl
    have hinner : (ln.enum.map
        (fun q => Instruction.try_from (i + 1) (q.1 + 1) q.2))[j]? =
        some (Instruction.try_from (i + 1) (j + 1) ch) := by
      rw [List.getElem?_map, List.getElem?_enum, h2]
      rfl
    have hidx := flatten_getElem _ i j _ _ hm hinner
    rw [parse_line_lengths (linesOf content.toList) i _ hf] at hidx
    exact hidx
  · intro l c ch h1 h2 h3 h4 h5 h6 h7 h8
    simp [Instruction.try_from, h1, h2, h3, h4, h5, h6, h7, h8]

/-- C7 counterexample: the 3-character source `">\n<"` parses to only 2
instructions — the line-break character is dropped entirely rather than
becoming a `Comment` instruction. -/
theorem claim_c7_counterexample :
    (Program.new "t" ">\n<").ins = [.IncrementDP 1 1, .DecrementDP 2 1] ∧
    (String.toList ">\n<").length = 3 :=
  ⟨rfl, rfl⟩

/-- Witness for C7 on `">\n<"`: the character `'<'`, first character of
the second line, parses to `DecrementDP` tagged line 2, column 1, at
flattened position 1. -/
theorem claim_c7_parse_witness :
    (linesOf (String.toList ">\n<"))[1]? = some ['<'] ∧
    (['<'] : List Char)[0]? = some '<' ∧
    (Program.new "t" ">\n<").ins[
        (((linesOf (String.toList ">\n<")).take 1).map List.length).sum + 0]? =
      some (Instruction.try_from 2 1 '<') :=
  ⟨rfl, rfl, (claim_c7_parse "t" ">\n<").2.1 1 0 ['<'] '<' rfl rfl⟩
